import Mathlib

/-!
Verification of the `wslcd` path resolver (`src/cmd/wslcd/main.go`).

The Go program resolves a possibly case-mismatched Windows-style drive path to
an existing directory under `/mnt/<drive>`.  This file gives a shallow
embedding of the program and proves the specification claims about it.

Modelling conventions:

* Strings are treated as sequences of Unicode characters (`List Char`).  Go
  indexes strings by UTF-8 bytes, but every index/slice the program takes is
  guarded so that byte positions coincide with character positions on the
  inputs the program accepts; byte-wise lexicographic comparison of valid
  UTF-8 equals code-point-wise comparison, which `charListLt` implements.
* Go's Unicode helpers (`unicode.IsLetter`, `unicode.ToLower`,
  `strings.EqualFold`, `strings.ToLower`, `unicode.IsSpace`) are modelled on
  the ASCII/Latin-1 range, which is the domain of drive letters and the paths
  the tool handles.
* The filesystem is a static tree `Node`.  A symbolic link is modelled
  transparently by the node it resolves to: `isDirFollowSymlink` in the source
  answers `true` exactly when the entry resolves to a directory (either
  directly or after `os.Stat` follows the link), which is `isDirNode` here; a
  dangling link (where `os.Stat` fails) is `Node.broken`.  A directory whose
  `os.ReadDir` listing fails carries `readable = false`.
* `fmt.Errorf` messages are modelled as strings; messages that embed an
  operating-system error value are approximated by a fixed prefix plus the
  path, except the "cannot segment" message, which the spec inspects and which
  is reproduced verbatim.
* `filepath.Join(dir, name)` equals `dir ++ "/" ++ name` (`goJoin`) whenever
  `dir` is a clean absolute path and `name` a valid directory-entry name,
  which holds for every join the resolver performs on the /mnt side.  The
  Linux-path branch joins arbitrary user input, so there the full
  `filepath.Clean` algorithm (`goClean`) is modelled.
* `sort.SliceStable(xs, less)` is modelled as Mathlib's stable
  `List.insertionSort` with the relation `fun a b => less b a = false`; a
  stable sort is unique, so any stable sort models Go's.
-/

/-- ASCII/Latin-1 model of Go's `unicode.IsSpace`, used by `strings.TrimSpace`. -/
def goIsSpace (c : Char) : Bool :=
  c == ' ' || c == '\t' || c == '\n' || c == '\r' ||
    c.toNat == 11 || c.toNat == 12 || c.toNat == 0x85 || c.toNat == 0xA0

/-- Model of `strings.TrimSpace` (main.go line 64). -/
def goTrim (s : String) : String :=
  String.mk (((s.data.dropWhile goIsSpace).reverse.dropWhile goIsSpace).reverse)

/-- ASCII model of `unicode.ToLower`. -/
def goToLower (c : Char) : Char :=
  if 'A' ≤ c ∧ c ≤ 'Z' then Char.ofNat (c.toNat + 32) else c

/-- ASCII model of `unicode.IsLetter` (`Char.isAlpha` is the ASCII letter test). -/
def goIsLetter (c : Char) : Bool := c.isAlpha

/-- Model of `strings.ToLower`. -/
def strToLower (s : String) : String := String.mk (s.data.map goToLower)

/-- Case-folded character equality, the per-character step of `strings.EqualFold`. -/
def foldEqChar (a b : Char) : Bool := goToLower a == goToLower b

/-- Recursive worker for `eqFold`: equal length and pointwise case-folded equality. -/
def eqFoldAux : List Char → List Char → Bool
  | [], [] => true
  | a :: as, b :: bs => foldEqChar a b && eqFoldAux as bs
  | [], _ :: _ => false
  | _ :: _, [] => false

/-- ASCII model of `strings.EqualFold`. -/
def eqFold (a b : String) : Bool := eqFoldAux a.data b.data

/-- Recursive worker for `caseScore`: counts positions with identical characters,
up to the length of the shorter list (main.go lines 314-322). -/
def caseScoreAux : List Char → List Char → Nat
  | a :: as, b :: bs => (if a = b then 1 else 0) + caseScoreAux as bs
  | [], _ => 0
  | _ :: _, [] => 0

/-- Model of `caseScore(input, candidate)` (main.go lines 314-322): the count of
character positions, up to the shorter length, where the two strings agree
exactly.  The Go accumulator starts at 0 and is only incremented, so the
result is a `Nat`. -/
def caseScore (input cand : String) : Nat := caseScoreAux input.data cand.data

/-- Lexicographic code-point comparison of character lists; on valid UTF-8 this
coincides with Go's byte-wise `<` on strings. -/
def charListLt : List Char → List Char → Bool
  | [], [] => false
  | [], _ :: _ => true
  | _ :: _, [] => false
  | a :: as, b :: bs =>
    if a.toNat < b.toNat then true
    else if b.toNat < a.toNat then false
    else charListLt as bs

/-- Splitting worker: cut a character list at every separator, keeping empty
pieces, exactly like Go's `strings.Split`. -/
def goSplitAux (sep : Char) : List Char → List Char → List String
  | [], acc => [String.mk acc.reverse]
  | c :: cs, acc =>
    if c == sep then String.mk acc.reverse :: goSplitAux sep cs []
    else goSplitAux sep cs (c :: acc)

/-- Model of `strings.Split` on a single-character separator. -/
def goSplit (sep : Char) (cs : List Char) : List String := goSplitAux sep cs []

/-- Character test for a path-separator byte, `'\\'` or `'/'`. -/
def isSep (c : Char) : Bool := c == '\\' || c == '/'

/-- One element step of Go's `filepath.Clean`: drop empty and `.` elements,
let `..` pop (saturating at the root when the path is rooted), push others.
The accumulator holds the output elements in reverse. -/
def cleanStep (rooted : Bool) (acc : List String) (s : String) : List String :=
  if s == "" then acc
  else if s == "." then acc
  else if s == ".." then
    if rooted then acc.tail
    else
      match acc with
      | [] => [".."]
      | t :: ts => if t == ".." then ".." :: t :: ts else ts
  else s :: acc

/-- Join a component list with `/` separators. -/
def strIntercalateSlash : List String → String
  | [] => ""
  | [s] => s
  | s :: rest => s ++ "/" ++ strIntercalateSlash rest

/-- Model of `filepath.Clean` on Unix: lexical simplification of a path. -/
def goClean (p : String) : String :=
  let rooted := p.data.headD ' ' == '/'
  let comps := ((goSplit '/' p.data).foldl (cleanStep rooted) []).reverse
  if comps.isEmpty then (if rooted then "/" else ".")
  else (if rooted then "/" else "") ++ strIntercalateSlash comps

/-- Model of `filepath.Join(a, b)` for nonempty `a`: `Clean(a + "/" + b)`.
Used only by the Linux-path branch, where the arguments are arbitrary. -/
def goJoinClean (a b : String) : String := goClean (a ++ "/" ++ b)

/-- Model of `filepath.Join(dir, name)` on the /mnt side, where `dir` is always
a clean absolute path and `name` a directory-entry name, so that `Clean` is
the identity and the join is plain concatenation. -/
def goJoin (dir name : String) : String := dir ++ "/" ++ name

/-- Boolean prefix test on character lists (model of `strings.HasPrefix`). -/
def pfxOf : List Char → List Char → Bool
  | [], _ => true
  | _ :: _, [] => false
  | a :: as, b :: bs => a == b && pfxOf as bs

/-- The static filesystem tree.  `dir readable ents` is a directory (possibly
reached through a symbolic link); `readable = false` means `os.ReadDir` fails
on it while `os.Stat` still reports a directory.  `file` is an entry that
resolves to a non-directory; `broken` is an entry on which `os.Stat` fails
(for example a dangling symbolic link). -/
inductive Node where
  | dir (readable : Bool) (ents : List (String × Node))
  | file
  | broken

/-- Directory-listing lookup of a name, first match (real directories have
unique names). -/
def findEntry (ents : List (String × Node)) (name : String) : Option Node :=
  match ents with
  | [] => none
  | e :: es => if e.1 == name then some e.2 else findEntry es name

/-- Walk a component list down the tree. -/
def lookupNode : Node → List String → Option Node
  | n, [] => some n
  | .dir _ ents, c :: cs =>
    match findEntry ents c with
    | some m => lookupNode m cs
    | none => none
  | .file, _ :: _ => none
  | .broken, _ :: _ => none

/-- Parse a path string into its nonempty components. -/
def splitPath (p : String) : List String :=
  (goSplit '/' p.data).filter (fun s => !(s == ""))

/-- Model of `os.Stat(p).IsDir()`: `some true` for a directory, `some false`
for a non-directory, `none` when `Stat` fails. -/
def statPath (fs : Node) (p : String) : Option Bool :=
  match lookupNode fs (splitPath p) with
  | some (.dir _ _) => some true
  | some .file => some false
  | some .broken => none
  | none => none

/-- Model of `os.ReadDir(p)`: the entries of a readable directory, `none` when
the listing fails. -/
def readDirPath (fs : Node) (p : String) : Option (List (String × Node)) :=
  match lookupNode fs (splitPath p) with
  | some (.dir true ents) => some ents
  | _ => none

/-- Model of `isDirFollowSymlink` (main.go lines 307-312): whether a listed
entry resolves, following symbolic links, to a directory.  The `Node.broken`
case is where the Go helper returns an error; every caller treats an error
the same as `false`, so the model folds the two outcomes together. -/
def isDirNode : Node → Bool
  | .dir _ _ => true
  | .file => false
  | .broken => false

/-- Model of `isWindowsPath` (main.go lines 116-130): letter, colon, then a
slash or backslash. -/
def isWindowsPath (p : String) : Bool :=
  if p.data.length < 3 then false
  else
    goIsLetter (p.data.getD 0 ' ') && p.data.getD 1 ' ' == ':' &&
      (p.data.getD 2 ' ' == '\\' || p.data.getD 2 ' ' == '/')

/-- Model of `looksLikeWindowsDriveNoSlash` (main.go lines 133-141): letter,
colon, then anything but a slash or backslash. -/
def looksLikeWindowsDriveNoSlash (p : String) : Bool :=
  if p.data.length < 3 then false
  else
    goIsLetter (p.data.getD 0 ' ') && p.data.getD 1 ' ' == ':' &&
      !(p.data.getD 2 ' ' == '\\') && !(p.data.getD 2 ' ' == '/')

/-- Model of `resolveLinuxLike` (main.go lines 95-113): `~`, `~/...`,
absolute, or relative-to-cwd resolution followed by `filepath.Clean`. -/
def resolveLinuxLike (arg cwd home : String) : Except String String :=
  if arg == "~" then
    if home == "" then .error "error: HOME is not set" else .ok (goClean home)
  else if pfxOf "~/".data arg.data then
    if home == "" then .error "error: HOME is not set"
    else .ok (goClean (goJoinClean home (String.mk (arg.data.drop 2))))
  else if pfxOf "/".data arg.data then .ok (goClean arg)
  else .ok (goClean (goJoinClean cwd arg))

/-- The Linux branch of `ResolveTarget` (main.go lines 79-91): resolve the
path, then verify with `os.Stat` that it exists and is a directory. -/
def linuxVerify (fs : Node) (arg cwd home : String) : Except String String :=
  match resolveLinuxLike arg cwd home with
  | .error e => .error e
  | .ok p =>
    match statPath fs p with
    | none => .error ("error: stat failed: " ++ p)
    | some false => .error ("error: not a directory: " ++ p)
    | some true => .ok p

/-- A scored mount-parent match inside `pickCaseInsensitiveEntry`. -/
structure PickEntry where
  name : String
  score : Nat
deriving DecidableEq

/-- The `less` closure of `pickCaseInsensitiveEntry`'s `sort.SliceStable`
(main.go lines 260-263): score descending, then name ascending. -/
def pickLess (a b : PickEntry) : Bool :=
  if a.score ≠ b.score then decide (b.score < a.score)
  else charListLt a.name.data b.name.data

/-- The case-insensitive matches collected by `pickCaseInsensitiveEntry`
(main.go lines 249-254). -/
def pickMatches (want : String) (ents : List (String × Node)) : List PickEntry :=
  ents.filterMap (fun e =>
    if eqFold e.1 want then some (PickEntry.mk e.1 (caseScore want e.1)) else none)

/-- Model of `pickCaseInsensitiveEntry` (main.go lines 243-265): list the
directory, collect case-insensitive matches of `want`; with no match, probe
the literal lowercase name; otherwise pick the stable-sort leader. -/
def pickCaseInsensitiveEntry (fs : Node) (dir want : String) : Except String String :=
  match readDirPath fs dir with
  | none => .error ("cannot read directory " ++ dir)
  | some ents =>
    match pickMatches want ents with
    | [] =>
      match statPath fs (goJoin dir (strToLower want)) with
      | some true => .ok (strToLower want)
      | _ => .error ("no match for " ++ want ++ " in " ++ dir)
    | m :: ms =>
      match List.insertionSort (fun a b => pickLess b a = false) (m :: ms) with
      | best :: _ => .ok best.name
      | [] => .error "unreachable"

/-- A scored full-path result of the explorer (main.go line 267). -/
structure candidate where
  fullPath : String
  score : Nat
deriving DecidableEq

/-- The `less` closure of `resolveWindowsPath`'s `sort.SliceStable` (main.go
lines 176-179): score descending, then full path ascending in byte order. -/
def candLess (a b : candidate) : Bool :=
  if a.score ≠ b.score then decide (b.score < a.score)
  else charListLt a.fullPath.data b.fullPath.data

/-- The matches retained at one explorer level (main.go lines 285-292): the
entries case-insensitively equal to the segment that resolve to directories,
each with its score. -/
def entryMatches (seg : String) (ents : List (String × Node)) : List (String × Nat) :=
  ents.filterMap (fun e =>
    if eqFold e.1 seg then
      if isDirNode e.2 then some (e.1, caseScore seg e.1) else none
    else none)

/-- The depth-first search of `exploreCandidates` (main.go lines 272-298),
structurally recursive on the remaining segments.  A listing failure yields
no candidates for that branch and no error; the Go closure likewise always
returns a nil error. -/
def dfs (fs : Node) : String → List String → Nat → List candidate
  | dir, [], score =>
    match statPath fs dir with
    | some true => [⟨dir, score⟩]
    | _ => []
  | dir, seg :: rest, score =>
    match readDirPath fs dir with
    | none => []
    | some ents =>
      ((entryMatches seg ents).map (fun m => dfs fs (goJoin dir m.1) rest (score + m.2))).flatten

/-- Model of `exploreCandidates` (main.go lines 269-305). -/
def exploreCandidates (fs : Node) (root : String) (segs : List String) : List candidate :=
  if segs.isEmpty then
    match statPath fs root with
    | some true => [⟨root, 0⟩]
    | _ => []
  else dfs fs root segs 0

/-- Replace backslashes by slashes (`strings.ReplaceAll(rest, "\\", "/")`). -/
def slashify (c : Char) : Char := if c = '\\' then '/' else c

/-- One step of the segment normalisation loop (main.go lines 151-156): skip
empty and `.` components, let `..` pop the previous segment (a no-op at the
start), append the rest. -/
def normStep (segs : List String) (s : String) : List String :=
  if s == "" then segs
  else if s == "." then segs
  else if s == ".." then segs.dropLast
  else segs ++ [s]

/-- The normalised segment list of a separator-using drive path (main.go lines
146-156): drop the drive prefix, unify separators, split and normalise. -/
def winSegs (win : String) : List String :=
  (goSplit '/' ((win.data.drop 2).map slashify)).foldl normStep []

/-- The lowercased drive label of a drive path, as a one-character string. -/
def driveOf (win : String) : String := String.mk [goToLower (win.data.headD ' ')]

/-- Model of `resolveWindowsPath` (main.go lines 144-181): locate the mount
root, explore all candidates, and return the stable-sort leader; with no
candidates, an empty segment list falls back to the root itself. -/
def resolveWindowsPath (fs : Node) (win : String) : Except String String :=
  match pickCaseInsensitiveEntry fs "/mnt" (driveOf win) with
  | .error e => .error ("error: cannot locate /mnt/" ++ driveOf win ++ " (drive mapping): " ++ e)
  | .ok mntRoot =>
    let root := goJoin "/mnt" mntRoot
    let segs := winSegs win
    match exploreCandidates fs root segs with
    | [] =>
      if segs.isEmpty then
        match statPath fs root with
        | some true => .ok root
        | some false => .error ("error: not a directory: " ++ root)
        | none => .error ("error: stat failed: " ++ root)
      else .error ("error: path does not exist (no case-insensitive match): " ++ win)
    | c :: cs =>
      match List.insertionSort (fun a b => candLess b a = false) (c :: cs) with
      | best :: _ => .ok best.fullPath
      | [] => .error "unreachable"

/-- A greedy-matcher step candidate (main.go line 208): entry name, matched
prefix length, score. -/
structure MCand where
  name : String
  plen : Nat
  score : Nat
deriving DecidableEq

/-- The `less` closure of the greedy matcher's `sort.SliceStable` (main.go
lines 225-229): prefix length descending, then score descending, then name
ascending. -/
def mcandLess (a b : MCand) : Bool :=
  if a.plen ≠ b.plen then decide (b.plen < a.plen)
  else if a.score ≠ b.score then decide (b.score < a.score)
  else charListLt a.name.data b.name.data

/-- The match candidates of one greedy step (main.go lines 210-219): entries
whose name is no longer than the tail, case-insensitively equal to the
same-length prefix of the tail, and resolving to a directory. -/
def collectMatches (tail : List Char) (ents : List (String × Node)) : List MCand :=
  ents.filterMap (fun e =>
    if tail.length < e.1.data.length then none
    else if eqFold (String.mk (tail.take e.1.data.length)) e.1 then
      if isDirNode e.2 then
        some (MCand.mk e.1 e.1.data.length
          (caseScore (String.mk (tail.take e.1.data.length)) e.1))
      else none
    else none)

/-- Model of `argHead` (main.go lines 237-241): the tail head truncated to 16
characters for display. -/
def argHead (s : String) : String :=
  if s.data.length = 0 then ""
  else if 16 < s.data.length then String.mk (s.data.take 16) ++ "..."
  else s

/-- The "cannot segment" failure message (main.go line 222), reproduced
verbatim. -/
def cannotSegmentMsg (tail curr : String) : String :=
  "error: cannot segment '" ++ tail ++ "' at '" ++ argHead tail ++ "' under " ++ curr ++
    "\nHint: quote the Windows path or use forward slashes (e.g., C:/...)"

/-- The loop of `resolveWindowsPathCollapsed` (main.go lines 195-234), with a
fuel parameter standing for the loop's termination: every iteration of the Go
loop either returns or consumes at least one tail character (directory-entry
names are nonempty on a real filesystem), so `tail.length + 1` units of fuel
are never exhausted there. -/
def resolveCollapsedGo (fs : Node) : Nat → String → String → Except String String
  | 0, _, _ => .error "out of fuel"
  | fuel + 1, curr, tail =>
    if tail == "" then
      match statPath fs curr with
      | some true => .ok curr
      | some false => .error ("error: not a directory: " ++ curr)
      | none => .error ("error: stat failed: " ++ curr)
    else if isSep (tail.data.headD ' ') then
      resolveCollapsedGo fs fuel curr (String.mk (tail.data.dropWhile isSep))
    else
      match readDirPath fs curr with
      | none => .error ("error: cannot read directory " ++ curr)
      | some ents =>
        match collectMatches tail.data ents with
        | [] => .error (cannotSegmentMsg tail curr)
        | m :: ms =>
          match List.insertionSort (fun a b => mcandLess b a = false) (m :: ms) with
          | chosen :: _ =>
            resolveCollapsedGo fs fuel (goJoin curr chosen.name)
              (String.mk (tail.data.drop chosen.plen))
          | [] => .error "unreachable"

/-- Model of `resolveWindowsPathCollapsed` (main.go lines 184-235). -/
def resolveWindowsPathCollapsed (fs : Node) (win : String) : Except String String :=
  match pickCaseInsensitiveEntry fs "/mnt" (driveOf win) with
  | .error e => .error ("error: cannot locate /mnt/" ++ driveOf win ++ " (drive mapping): " ++ e)
  | .ok mntRoot =>
    let curr := goJoin "/mnt" mntRoot
    let tail := String.mk ((win.data.drop 2).dropWhile isSep)
    resolveCollapsedGo fs (tail.data.length + 1) curr tail

/-- Model of `ResolveTarget` (main.go lines 63-92): trim, reject empty input,
classify the shape, and dispatch to the matching resolver. -/
def ResolveTarget (fs : Node) (arg cwd home : String) : Except String String :=
  let a := goTrim arg
  if a == "" then .error "error: missing target directory"
  else if isWindowsPath a then resolveWindowsPath fs a
  else if looksLikeWindowsDriveNoSlash a then resolveWindowsPathCollapsed fs a
  else linuxVerify fs a cwd home

/-! ### Specification-side definitions and concrete fixtures -/

/-- Specification-side count for `caseScore`: the number of 0-indexed
positions strictly below the length of the shorter string at which the two
strings hold identical characters (case-sensitive).  The out-of-range
defaults of `getD` differ, so they can never produce a spurious match. -/
def caseScoreSpec (a b : String) : Nat :=
  (List.range (min a.data.length b.data.length)).countP
    (fun i => decide (a.data.getD i 'A' = b.data.getD i 'B'))

/-- Sum of the character lengths of a segment list: the maximum possible
explorer score for those segments. -/
def segLenSum (segs : List String) : Nat := (segs.map (fun s => s.data.length)).sum

/-- A path `p` is reached from `d` only through listed entries that each
resolve (following symbolic links) to a directory. -/
inductive ReachedThroughDirs (fs : Node) : String → String → Prop
  | refl (d : String) : ReachedThroughDirs fs d d
  | step (d n p : String) (nd : Node) (ents : List (String × Node))
      (hread : readDirPath fs d = some ents) (hmem : (n, nd) ∈ ents)
      (hdir : isDirNode nd = true)
      (hrest : ReachedThroughDirs fs (goJoin d n) p) : ReachedThroughDirs fs d p

/-- An exact-case chain of real directories: starting at `d`, each segment in
turn names a listed entry (with identical case) that resolves to a directory,
and the final path passes the directory stat check.  Returns the final path. -/
def exactChain (fs : Node) : String → List String → Option String
  | d, [] =>
    match statPath fs d with
    | some true => some d
    | _ => none
  | d, seg :: rest =>
    match readDirPath fs d with
    | none => none
    | some ents =>
      match findEntry ents seg with
      | some nd => if isDirNode nd then exactChain fs (goJoin d seg) rest else none
      | none => none

/-- Conclusion of claim C1: some candidate of the explorer output is returned
by `resolveWindowsPath`, and the total order score-descending then
full-path-ascending (byte order) places it at or before every candidate. -/
def SelectorSpec (fs : Node) (win : String) (cands : List candidate) : Prop :=
  ∃ c, c ∈ cands ∧
    (∀ c2 ∈ cands,
      c2.score < c.score ∨
        (c.score = c2.score ∧ charListLt c2.fullPath.data c.fullPath.data = false)) ∧
    resolveWindowsPath fs win = Except.ok c.fullPath

/-- Conclusion of claim C2: at a greedy-matcher step the match candidates are
exactly the entries no longer than the tail whose name case-insensitively
equals the same-length tail prefix and which resolve to a directory; the
chosen one is first under prefix-length/score/name order, and exactly its
prefix length of characters is consumed before the next step. -/
def CollapsedStepSpec (fs : Node) (fuel : Nat) (curr tail : String)
    (ents : List (String × Node)) : Prop :=
  (∀ m, m ∈ collectMatches tail.data ents ↔
    ∃ e, e ∈ ents ∧ e.1.data.length ≤ tail.data.length ∧
      eqFold (String.mk (tail.data.take e.1.data.length)) e.1 = true ∧
      isDirNode e.2 = true ∧
      m = MCand.mk e.1 e.1.data.length
            (caseScore (String.mk (tail.data.take e.1.data.length)) e.1)) ∧
  ∃ ch, ch ∈ collectMatches tail.data ents ∧ ch.plen = ch.name.data.length ∧
    (∀ m ∈ collectMatches tail.data ents,
      m.plen < ch.plen ∨
        (ch.plen = m.plen ∧
          (m.score < ch.score ∨
            (ch.score = m.score ∧ charListLt m.name.data ch.name.data = false)))) ∧
    resolveCollapsedGo fs (fuel + 1) curr tail =
      resolveCollapsedGo fs fuel (goJoin curr ch.name)
        (String.mk (tail.data.drop ch.plen))

/-- Conclusion of claim C7: the mount-root locator collects exactly the
case-insensitive matches of the label; with matches it returns the first
under score-descending then name-ascending order; with none it returns the
lowercase probe exactly when that entry exists as a directory, and otherwise
fails with the no-match error. -/
def PickSpec (fs : Node) (dir want : String) (ents : List (String × Node)) : Prop :=
  (∀ p, p ∈ pickMatches want ents ↔
    ∃ e, e ∈ ents ∧ eqFold e.1 want = true ∧ p = PickEntry.mk e.1 (caseScore want e.1)) ∧
  (pickMatches want ents ≠ [] →
    ∃ m, m ∈ pickMatches want ents ∧
      (∀ p ∈ pickMatches want ents,
        p.score < m.score ∨
          (m.score = p.score ∧ charListLt p.name.data m.name.data = false)) ∧
      pickCaseInsensitiveEntry fs dir want = Except.ok m.name) ∧
  (pickMatches want ents = [] →
    (statPath fs (goJoin dir (strToLower want)) = some true →
      pickCaseInsensitiveEntry fs dir want = Except.ok (strToLower want)) ∧
    (statPath fs (goJoin dir (strToLower want)) ≠ some true →
      pickCaseInsensitiveEntry fs dir want =
        Except.error ("no match for " ++ want ++ " in " ++ dir)))

/-- Conclusion of claim C5: the unreadable sibling branch contributes no
candidate (and no error, the search being total), while the readable sibling
branch's candidate is in the search output, which is therefore nonempty. -/
def PruneSpec (fs : Node) (d seg : String) (rest : List String) (s : Nat)
    (uName : String) (c : candidate) : Prop :=
  (∀ s2, dfs fs (goJoin d uName) rest s2 = []) ∧
  c ∈ dfs fs d (seg :: rest) s ∧
  dfs fs d (seg :: rest) s ≠ []

/-- Conclusion of claim C9: the exact-case candidate with the maximum possible
score (the sum of all segment lengths) is produced, every candidate's score
is bounded by that sum, and resolution returns exactly the exact-case path. -/
def RoundTripSpec (fs : Node) (win root p : String) : Prop :=
  candidate.mk p (segLenSum (winSegs win)) ∈ exploreCandidates fs root (winSegs win) ∧
  (∀ c ∈ exploreCandidates fs root (winSegs win), c.score ≤ segLenSum (winSegs win)) ∧
  resolveWindowsPath fs win = Except.ok p

/-- Fixture: `/mnt/c` containing sibling directories `USERS` and `Users` that
collide case-insensitively. -/
def fsTie : Node :=
  .dir true [("mnt", .dir true [("c", .dir true
    [("USERS", .dir true []), ("Users", .dir true [])])])]

/-- Fixture: `/mnt/c` containing `Projects` (with child `repo`) and
`ProjectsX`, for the greedy matcher. -/
def fsCol : Node :=
  .dir true [("mnt", .dir true [("c", .dir true
    [("Projects", .dir true [("repo", .dir true [])]),
     ("ProjectsX", .dir true [])])])]

/-- Fixture: `/mnt/c` containing an unreadable directory `DATA` and a readable
case-insensitive sibling `data` with child `x`. -/
def fsPrune : Node :=
  .dir true [("mnt", .dir true [("c", .dir true
    [("DATA", .dir false [("x", .dir true [])]),
     ("data", .dir true [("x", .dir true [])])])])]

/-- Fixture: the exactly-cased chain `/mnt/c/Users/Docs`. -/
def fsChain : Node :=
  .dir true [("mnt", .dir true [("c", .dir true
    [("Users", .dir true [("Docs", .dir true [])])])])]

/-- Fixture: a filesystem holding only an empty root directory. -/
def fsEmpty : Node := .dir true []

/-! ### Order lemmas for the three `sort.SliceStable` comparators -/

/-- Strict lexicographic character comparison is asymmetric. -/
theorem charListLt_asymm (a b : List Char) (h : charListLt a b = true) :
    charListLt b a = false := by
  induction a generalizing b with
  | nil =>
    cases b with
    | nil => simp [charListLt] at h
    | cons bb bs => simp [charListLt]
  | cons aa as ih =>
    cases b with
    | nil => simp [charListLt] at h
    | cons bb bs =>
      simp only [charListLt] at h ⊢
      by_cases h1 : aa.toNat < bb.toNat
      · rw [if_neg (by omega : ¬ bb.toNat < aa.toNat), if_pos h1]
      · by_cases h2 : bb.toNat < aa.toNat
        · rw [if_neg h1, if_pos h2] at h
          simp at h
        · rw [if_neg h1, if_neg h2] at h
          rw [if_neg h2, if_neg h1]
          exact ih bs h

/-- The non-strict side of lexicographic comparison is transitive. -/
theorem charListLt_le_trans (a b c : List Char) (h1 : charListLt b a = false)
    (h2 : charListLt c b = false) : charListLt c a = false := by
  induction a generalizing b c with
  | nil => cases c <;> simp [charListLt]
  | cons aa as ih =>
    cases b with
    | nil => simp [charListLt] at h1
    | cons bb bs =>
      cases c with
      | nil => simp [charListLt] at h2
      | cons cc cs =>
        simp only [charListLt] at h1 h2 ⊢
        by_cases hba : bb.toNat < aa.toNat
        · rw [if_pos hba] at h1
          simp at h1
        · by_cases hcb : cc.toNat < bb.toNat
          · rw [if_pos hcb] at h2
            simp at h2
          · rw [if_neg (by omega : ¬ cc.toNat < aa.toNat)]
            by_cases hac : aa.toNat < cc.toNat
            · rw [if_pos hac]
            · rw [if_neg hba, if_neg (by omega : ¬ aa.toNat < bb.toNat)] at h1
              rw [if_neg hcb, if_neg (by omega : ¬ bb.toNat < cc.toNat)] at h2
              rw [if_neg hac]
              exact ih bs cs h1 h2

/-- The non-strict side of lexicographic comparison is total. -/
theorem charListLt_le_total (a b : List Char) :
    charListLt b a = false ∨ charListLt a b = false := by
  cases h : charListLt b a with
  | false => exact Or.inl rfl
  | true => exact Or.inr (charListLt_asymm b a h)

/-- One lexicographic key of a Go `less` closure: the sort relation
`less b a = false` unfolds to key descending, then the rest. -/
theorem keyStep (k1 k2 : Nat) (rest : Bool) :
    ((if k1 ≠ k2 then decide (k2 < k1) else rest) = false) ↔
      (k1 < k2 ∨ (k2 = k1 ∧ rest = false)) := by
  by_cases h : k1 = k2
  · simp [h]
  · rw [if_pos h]
    simp only [decide_eq_false_iff_not, Nat.not_lt]
    constructor
    · intro hle
      exact Or.inl (by omega)
    · rintro (hlt | ⟨he, _⟩) <;> omega

/-- The relation `resolveWindowsPath` sorts by: score descending, then full
path ascending in byte order. -/
theorem candLE_iff (a b : candidate) :
    (candLess b a = false) ↔
      (b.score < a.score ∨
        (a.score = b.score ∧ charListLt b.fullPath.data a.fullPath.data = false)) := by
  unfold candLess
  exact keyStep b.score a.score _

/-- The relation `pickCaseInsensitiveEntry` sorts by: score descending, then
name ascending. -/
theorem pickLE_iff (a b : PickEntry) :
    (pickLess b a = false) ↔
      (b.score < a.score ∨
        (a.score = b.score ∧ charListLt b.name.data a.name.data = false)) := by
  unfold pickLess
  exact keyStep b.score a.score _

/-- The relation the greedy matcher sorts by: prefix length descending, then
score descending, then name ascending. -/
theorem mcandLE_iff (a b : MCand) :
    (mcandLess b a = false) ↔
      (b.plen < a.plen ∨
        (a.plen = b.plen ∧
          (b.score < a.score ∨
            (a.score = b.score ∧ charListLt b.name.data a.name.data = false)))) := by
  unfold mcandLess
  rw [keyStep, keyStep]

/-- Totality of the candidate sort relation. -/
theorem candLE_total (a b : candidate) :
    candLess b a = false ∨ candLess a b = false := by
  rw [candLE_iff, candLE_iff]
  rcases Nat.lt_trichotomy a.score b.score with h | h | h
  · exact Or.inr (Or.inl h)
  · rcases charListLt_le_total a.fullPath.data b.fullPath.data with hc | hc
    · exact Or.inl (Or.inr ⟨h, hc⟩)
    · exact Or.inr (Or.inr ⟨h.symm, hc⟩)
  · exact Or.inl (Or.inl h)

/-- Transitivity of the candidate sort relation. -/
theorem candLE_trans (a b c : candidate) (h1 : candLess b a = false)
    (h2 : candLess c b = false) : candLess c a = false := by
  rw [candLE_iff] at h1 h2 ⊢
  rcases h1 with h1 | ⟨h1e, h1c⟩ <;> rcases h2 with h2 | ⟨h2e, h2c⟩
  · exact Or.inl (by omega)
  · exact Or.inl (by omega)
  · exact Or.inl (by omega)
  · exact Or.inr ⟨by omega, charListLt_le_trans _ _ _ h1c h2c⟩

/-- Totality of the mount-root sort relation. -/
theorem pickLE_total (a b : PickEntry) :
    pickLess b a = false ∨ pickLess a b = false := by
  rw [pickLE_iff, pickLE_iff]
  rcases Nat.lt_trichotomy a.score b.score with h | h | h
  · exact Or.inr (Or.inl h)
  · rcases charListLt_le_total a.name.data b.name.data with hc | hc
    · exact Or.inl (Or.inr ⟨h, hc⟩)
    · exact Or.inr (Or.inr ⟨h.symm, hc⟩)
  · exact Or.inl (Or.inl h)

/-- Transitivity of the mount-root sort relation. -/
theorem pickLE_trans (a b c : PickEntry) (h1 : pickLess b a = false)
    (h2 : pickLess c b = false) : pickLess c a = false := by
  rw [pickLE_iff] at h1 h2 ⊢
  rcases h1 with h1 | ⟨h1e, h1c⟩ <;> rcases h2 with h2 | ⟨h2e, h2c⟩
  · exact Or.inl (by omega)
  · exact Or.inl (by omega)
  · exact Or.inl (by omega)
  · exact Or.inr ⟨by omega, charListLt_le_trans _ _ _ h1c h2c⟩

/-- Totality of the greedy-step sort relation. -/
theorem mcandLE_total (a b : MCand) :
    mcandLess b a = false ∨ mcandLess a b = false := by
  rw [mcandLE_iff, mcandLE_iff]
  rcases Nat.lt_trichotomy a.plen b.plen with h | h | h
  · exact Or.inr (Or.inl h)
  · rcases Nat.lt_trichotomy a.score b.score with hs | hs | hs
    · exact Or.inr (Or.inr ⟨h.symm, Or.inl hs⟩)
    · rcases charListLt_le_total a.name.data b.name.data with hc | hc
      · exact Or.inl (Or.inr ⟨h, Or.inr ⟨hs, hc⟩⟩)
      · exact Or.inr (Or.inr ⟨h.symm, Or.inr ⟨hs.symm, hc⟩⟩)
    · exact Or.inl (Or.inr ⟨h, Or.inl hs⟩)
  · exact Or.inl (Or.inl h)

/-- Transitivity of the greedy-step sort relation. -/
theorem mcandLE_trans (a b c : MCand) (h1 : mcandLess b a = false)
    (h2 : mcandLess c b = false) : mcandLess c a = false := by
  rw [mcandLE_iff] at h1 h2 ⊢
  rcases h1 with h1 | ⟨h1e, h1r⟩
  · rcases h2 with h2 | ⟨h2e, h2r⟩
    · exact Or.inl (by omega)
    · exact Or.inl (by omega)
  · rcases h2 with h2 | ⟨h2e, h2r⟩
    · exact Or.inl (by omega)
    · refine Or.inr ⟨by omega, ?_⟩
      rcases h1r with h1r | ⟨h1s, h1c⟩
      · rcases h2r with h2r | ⟨h2s, h2c⟩
        · exact Or.inl (by omega)
        · exact Or.inl (by omega)
      · rcases h2r with h2r | ⟨h2s, h2c⟩
        · exact Or.inl (by omega)
        · exact Or.inr ⟨by omega, charListLt_le_trans _ _ _ h1c h2c⟩

/-- The head of a stable sort under a total transitive relation is a member of
the input list that the relation places at or before every member. -/
theorem insertionSort_head_min {α : Type} (r : α → α → Prop) [DecidableRel r]
    (htot : ∀ a b, r a b ∨ r b a) (htrans : ∀ a b c, r a b → r b c → r a c)
    (l : List α) (h : α) (t : List α) (heq : List.insertionSort r l = h :: t) :
    h ∈ l ∧ ∀ x ∈ l, r h x := by
  haveI : IsTotal α r := ⟨htot⟩
  haveI : IsTrans α r := ⟨fun a b c => htrans a b c⟩
  have hperm := List.perm_insertionSort r l
  have hsort := List.sorted_insertionSort r l
  rw [heq] at hperm hsort
  constructor
  · exact hperm.mem_iff.mp (List.mem_cons_self h t)
  · intro x hx
    rcases List.mem_cons.mp (hperm.mem_iff.mpr hx) with rfl | hxt
    · exact (htot x x).elim id id
    · exact List.rel_of_sorted_cons hsort x hxt

/-! ### Claim C3 and C4: the case scorer -/

/-- The recursive scorer computes exactly the positional match count. -/
theorem caseScoreAux_spec (a b : List Char) :
    caseScoreAux a b =
      (List.range (min a.length b.length)).countP
        (fun i => decide (a.getD i 'A' = b.getD i 'B')) := by
  induction a generalizing b with
  | nil => simp [caseScoreAux]
  | cons x xs ih =>
    cases b with
    | nil => simp [caseScoreAux]
    | cons y ys =>
      simp only [caseScoreAux, List.length_cons, Nat.succ_min_succ, List.range_succ_eq_map,
        List.countP_cons, List.countP_map]
      rw [ih ys]
      simp [Function.comp_def, Nat.add_comm]

/-- Claim C3: for every pair of strings `a` and `b`, `caseScore a b` equals
the count of character positions `i`, 0-indexed and strictly below
`min (length a) (length b)`, at which `a` and `b` hold identical characters
under case-sensitive equality; excess length of the longer string contributes
nothing.  (Non-negativity is expressed by the `Nat` result type, matching the
Go accumulator that starts at 0 and is only incremented.) -/
theorem caseScore_counts_matching_positions (a b : String) :
    caseScore a b = caseScoreSpec a b :=
  caseScoreAux_spec a.data b.data

/-- Claim C4 counterexample: the claim asserts both scores equal 2, but the
scorer is case-sensitive, so `AB` matches neither character of `ab`. -/
theorem caseScore_AB_ab_counterexample :
    ¬ (caseScore "AB" "ab" = caseScore "AB" "abcdef" ∧ caseScore "AB" "ab" = 2) := by
  decide

/-- Claim C4 (amended): the score of requested segment `AB` against candidate
`ab` equals its score against `abcdef`, and both scores equal 0, so the two
candidates fall through to the lexicographic tie-break. -/
theorem caseScore_AB_ab_tie :
    caseScore "AB" "ab" = caseScore "AB" "abcdef" ∧ caseScore "AB" "ab" = 0 := by
  decide

/-! ### Helper lemmas about the embedded operations -/

/-- Two strings with the same character list are equal. -/
theorem string_eq_of_data {a b : String} (h : a.data = b.data) : a = b := by
  cases a
  cases b
  exact congrArg String.mk h

/-- Case folding compares every string equal to itself. -/
theorem eqFoldAux_refl (l : List Char) : eqFoldAux l l = true := by
  induction l with
  | nil => rfl
  | cons c cs ih => simp [eqFoldAux, foldEqChar, ih]

/-- Case-folded equal strings have equal length. -/
theorem eqFoldAux_length {a b : List Char} (h : eqFoldAux a b = true) :
    a.length = b.length := by
  induction a generalizing b with
  | nil =>
    cases b with
    | nil => rfl
    | cons y ys => simp [eqFoldAux] at h
  | cons x xs ih =>
    cases b with
    | nil => simp [eqFoldAux] at h
    | cons y ys =>
      simp only [eqFoldAux, Bool.and_eq_true] at h
      simp [ih h.2]

/-- The score never exceeds the length of the first string. -/
theorem caseScoreAux_le (a : List Char) : ∀ b, caseScoreAux a b ≤ a.length := by
  induction a with
  | nil => intro b; simp [caseScoreAux]
  | cons x xs ih =>
    intro b
    cases b with
    | nil => simp [caseScoreAux]
    | cons y ys =>
      simp only [caseScoreAux, List.length_cons]
      have := ih ys
      by_cases h : x = y <;> simp [h] <;> omega

/-- A string scores its own full length against itself. -/
theorem caseScoreAux_self (l : List Char) : caseScoreAux l l = l.length := by
  induction l with
  | nil => rfl
  | cons c cs ih =>
    simp [caseScoreAux, ih]
    omega

/-- A full-length score against an equal-length string forces equality. -/
theorem caseScoreAux_max_eq (a : List Char) :
    ∀ b, a.length = b.length → caseScoreAux a b = a.length → a = b := by
  induction a with
  | nil =>
    intro b hlen _
    cases b with
    | nil => rfl
    | cons y ys => simp at hlen
  | cons x xs ih =>
    intro b hlen h
    cases b with
    | nil => simp at hlen
    | cons y ys =>
      simp only [caseScoreAux, List.length_cons] at h hlen
      by_cases hxy : x = y
      · subst hxy
        rw [if_pos rfl] at h
        rw [ih ys (by omega) (by omega)]
      · rw [if_neg hxy] at h
        have := caseScoreAux_le xs ys
        omega

/-- A successful `findEntry` result is a member of the listing. -/
theorem findEntry_mem {ents : List (String × Node)} {n : String} {nd : Node}
    (h : findEntry ents n = some nd) : (n, nd) ∈ ents := by
  induction ents with
  | nil => cases h
  | cons e es ih =>
    unfold findEntry at h
    by_cases he : e.1 == n
    · rw [if_pos he] at h
      have h1 : e.1 = n := eq_of_beq he
      have h2 : e.2 = nd := Option.some.inj h
      have h3 : (n, nd) = e := by rw [← h1, ← h2]
      exact h3 ▸ List.mem_cons_self e es
    · rw [if_neg he] at h
      exact List.mem_cons_of_mem e (ih h)

/-- Membership in one explorer level's retained matches (main.go lines
285-292): exactly the case-insensitive, directory-resolving entries. -/
theorem mem_entryMatches {seg : String} {ents : List (String × Node)} {m : String × Nat} :
    m ∈ entryMatches seg ents ↔
      ∃ e, e ∈ ents ∧ eqFold e.1 seg = true ∧ isDirNode e.2 = true ∧
        m = (e.1, caseScore seg e.1) := by
  unfold entryMatches
  rw [List.mem_filterMap]
  constructor
  · rintro ⟨e, he, hfe⟩
    by_cases h1 : eqFold e.1 seg = true
    · rw [if_pos h1] at hfe
      by_cases h2 : isDirNode e.2 = true
      · rw [if_pos h2] at hfe
        exact ⟨e, he, h1, h2, (Option.some.inj hfe).symm⟩
      · rw [if_neg h2] at hfe
        cases hfe
    · rw [if_neg h1] at hfe
      cases hfe
  · rintro ⟨e, he, h1, h2, rfl⟩
    exact ⟨e, he, by rw [if_pos h1, if_pos h2]⟩

/-- Membership in one greedy step's match candidates (main.go lines 210-219):
exactly the entries no longer than the tail, case-insensitively equal to the
same-length tail prefix, and resolving to a directory. -/
theorem mem_collectMatches {tail : List Char} {ents : List (String × Node)} {m : MCand} :
    m ∈ collectMatches tail ents ↔
      ∃ e, e ∈ ents ∧ e.1.data.length ≤ tail.length ∧
        eqFold (String.mk (tail.take e.1.data.length)) e.1 = true ∧
        isDirNode e.2 = true ∧
        m = MCand.mk e.1 e.1.data.length
              (caseScore (String.mk (tail.take e.1.data.length)) e.1) := by
  unfold collectMatches
  rw [List.mem_filterMap]
  constructor
  · rintro ⟨e, he, hfe⟩
    by_cases h0 : tail.length < e.1.data.length
    · rw [if_pos h0] at hfe
      cases hfe
    · rw [if_neg h0] at hfe
      by_cases h1 : eqFold (String.mk (tail.take e.1.data.length)) e.1 = true
      · rw [if_pos h1] at hfe
        by_cases h2 : isDirNode e.2 = true
        · rw [if_pos h2] at hfe
          exact ⟨e, he, by omega, h1, h2, (Option.some.inj hfe).symm⟩
        · rw [if_neg h2] at hfe
          cases hfe
      · rw [if_neg h1] at hfe
        cases hfe
  · rintro ⟨e, he, h0, h1, h2, rfl⟩
    exact ⟨e, he, by rw [if_neg (by omega : ¬ tail.length < e.1.data.length), if_pos h1, if_pos h2]⟩

/-- The explorer's special empty-segment case coincides with the base case of
the search, so the search describes the whole explorer. -/
theorem exploreCandidates_eq_dfs (fs : Node) (root : String) (segs : List String) :
    exploreCandidates fs root segs = dfs fs root segs 0 := by
  cases segs with
  | nil => rfl
  | cons s ss => rfl

/-- The candidate emission invariant of the search: every emitted candidate
was reached through directory-resolving entries and passed the final stat
check at emission time. -/
theorem dfs_verified (fs : Node) (segs : List String) :
    ∀ d s c, c ∈ dfs fs d segs s →
      ReachedThroughDirs fs d c.fullPath ∧ statPath fs c.fullPath = some true := by
  induction segs with
  | nil =>
    intro d s c hc
    unfold dfs at hc
    cases hstat : statPath fs d with
    | none => rw [hstat] at hc; simp at hc
    | some b =>
      cases b with
      | false => rw [hstat] at hc; simp at hc
      | true =>
        rw [hstat] at hc
        simp only [List.mem_singleton] at hc
        subst hc
        exact ⟨ReachedThroughDirs.refl d, hstat⟩
  | cons seg rest ih =>
    intro d s c hc
    unfold dfs at hc
    cases hread : readDirPath fs d with
    | none => rw [hread] at hc; simp at hc
    | some ents =>
      rw [hread] at hc
      simp only [List.mem_flatten, List.mem_map] at hc
      obtain ⟨l, ⟨m, hm, rfl⟩, hcl⟩ := hc
      obtain ⟨e, he, hf, hdir, rfl⟩ := mem_entryMatches.mp hm
      obtain ⟨hreach, hstat⟩ := ih (goJoin d e.1) (s + caseScore seg e.1) c hcl
      exact ⟨ReachedThroughDirs.step d e.1 c.fullPath e.2 ents hread he hdir hreach, hstat⟩

theorem segLenSum_cons (s : String) (rest : List String) :
    segLenSum (s :: rest) = s.data.length + segLenSum rest := by
  simp [segLenSum]

theorem dfs_score_le (fs : Node) (segs : List String) :
    ∀ d s c, c ∈ dfs fs d segs s → c.score ≤ s + segLenSum segs := by
  induction segs with
  | nil =>
    intro d s c hc
    unfold dfs at hc
    cases hstat : statPath fs d with
    | none => rw [hstat] at hc; simp at hc
    | some b =>
      cases b with
      | false => rw [hstat] at hc; simp at hc
      | true =>
        rw [hstat] at hc
        simp only [List.mem_singleton] at hc
        subst hc
        simp [segLenSum]
  | cons seg rest ih =>
    intro d s c hc
    unfold dfs at hc
    cases hread : readDirPath fs d with
    | none => rw [hread] at hc; simp at hc
    | some ents =>
      rw [hread] at hc
      simp only [List.mem_flatten, List.mem_map] at hc
      obtain ⟨l, ⟨m, hm, rfl⟩, hcl⟩ := hc
      obtain ⟨e, he, hf, hdir, rfl⟩ := mem_entryMatches.mp hm
      have hb := ih (goJoin d e.1) (s + caseScore seg e.1) c hcl
      have hle : caseScore seg e.1 ≤ seg.data.length := caseScoreAux_le seg.data e.1.data
      rw [segLenSum_cons]
      omega

theorem dfs_max_path (fs : Node) (segs : List String) :
    ∀ d s c, c ∈ dfs fs d segs s → c.score = s + segLenSum segs →
      c.fullPath = List.foldl goJoin d segs := by
  induction segs with
  | nil =>
    intro d s c hc hsc
    unfold dfs at hc
    cases hstat : statPath fs d with
    | none => rw [hstat] at hc; simp at hc
    | some b =>
      cases b with
      | false => rw [hstat] at hc; simp at hc
      | true =>
        rw [hstat] at hc
        simp only [List.mem_singleton] at hc
        subst hc
        rfl
  | cons seg rest ih =>
    intro d s c hc hsc
    unfold dfs at hc
    cases hread : readDirPath fs d with
    | none => rw [hread] at hc; simp at hc
    | some ents =>
      rw [hread] at hc
      simp only [List.mem_flatten, List.mem_map] at hc
      obtain ⟨l, ⟨m, hm, rfl⟩, hcl⟩ := hc
      obtain ⟨e, he, hf, hdir, rfl⟩ := mem_entryMatches.mp hm
      have hb := dfs_score_le fs rest (goJoin d e.1) (s + caseScore seg e.1) c hcl
      have hle : caseScore seg e.1 ≤ seg.data.length := caseScoreAux_le seg.data e.1.data
      have hlen : e.1.data.length = seg.data.length := eqFoldAux_length hf
      rw [segLenSum_cons] at hsc
      have hcs : caseScore seg e.1 = seg.data.length := by omega
      have hseg : seg = e.1 :=
        string_eq_of_data (caseScoreAux_max_eq seg.data e.1.data (by omega) hcs)
      rw [List.foldl_cons, hseg]
      exact ih (goJoin d e.1) (s + caseScore seg e.1) c hcl (by omega)

theorem exactChain_foldl (fs : Node) (segs : List String) :
    ∀ d p, exactChain fs d segs = some p → p = List.foldl goJoin d segs := by
  induction segs with
  | nil =>
    intro d p h
    unfold exactChain at h
    cases hstat : statPath fs d with
    | none =>
      simp only [hstat] at h
      exact Option.noConfusion h
    | some b =>
      cases b with
      | false =>
        simp only [hstat] at h
        exact Option.noConfusion h
      | true =>
        simp only [hstat] at h
        exact (Option.some.inj h).symm
  | cons seg rest ih =>
    intro d p h
    unfold exactChain at h
    cases hread : readDirPath fs d with
    | none =>
      simp only [hread] at h
      exact Option.noConfusion h
    | some ents =>
      simp only [hread] at h
      cases hfind : findEntry ents seg with
      | none =>
        simp only [hfind] at h
        exact Option.noConfusion h
      | some nd =>
        simp only [hfind] at h
        by_cases hdir : isDirNode nd = true
        · rw [if_pos hdir] at h
          rw [List.foldl_cons]
          exact ih (goJoin d seg) p h
        · rw [if_neg hdir] at h
          cases h

theorem exactChain_mem_dfs (fs : Node) (segs : List String) :
    ∀ d p s, exactChain fs d segs = some p →
      candidate.mk p (s + segLenSum segs) ∈ dfs fs d segs s := by
  induction segs with
  | nil =>
    intro d p s h
    unfold exactChain at h
    unfold dfs
    cases hstat : statPath fs d with
    | none =>
      simp only [hstat] at h
      exact Option.noConfusion h
    | some b =>
      cases b with
      | false =>
        simp only [hstat] at h
        exact Option.noConfusion h
      | true =>
        simp only [hstat] at h
        have hp : d = p := Option.some.inj h
        subst hp
        simp [segLenSum]
  | cons seg rest ih =>
    intro d p s h
    unfold exactChain at h
    unfold dfs
    cases hread : readDirPath fs d with
    | none =>
      simp only [hread] at h
      exact Option.noConfusion h
    | some ents =>
      simp only [hread] at h ⊢
      cases hfind : findEntry ents seg with
      | none =>
        simp only [hfind] at h
        exact Option.noConfusion h
      | some nd =>
        simp only [hfind] at h
        by_cases hdir : isDirNode nd = true
        · rw [if_pos hdir] at h
          have hmem : (seg, caseScore seg seg) ∈ entryMatches seg ents :=
            mem_entryMatches.mpr
              ⟨(seg, nd), findEntry_mem hfind, eqFoldAux_refl seg.data, hdir, rfl⟩
          apply List.mem_flatten.mpr
          refine ⟨dfs fs (goJoin d seg) rest (s + caseScore seg seg),
            List.mem_map.mpr ⟨(seg, caseScore seg seg), hmem, rfl⟩, ?_⟩
          have hrec := ih (goJoin d seg) p (s + caseScore seg seg) h
          have hself : caseScore seg seg = seg.data.length := caseScoreAux_self seg.data
          have heq : s + segLenSum (seg :: rest) = (s + caseScore seg seg) + segLenSum rest := by
            rw [segLenSum_cons]
            omega
          rw [heq]
          exact hrec
        · rw [if_neg hdir] at h
          cases h

/-! ### The claims -/

/-- Claim C7: the Mount Root Locator lists the mount parent and collects
every entry whose name case-insensitively equals the one-character drive
label; with at least one match it returns the first under the order score
descending then name ascending; with none it returns the literal lowercase
label name exactly when a direct existence check shows that entry present and
a directory, and otherwise fails with the no-match error. -/
theorem pickCaseInsensitiveEntry_locates (fs : Node) (dir want : String)
    (ents : List (String × Node)) (hw : want.data.length = 1)
    (hread : readDirPath fs dir = some ents) :
    PickSpec fs dir want ents := by
  refine ⟨?_, ?_, ?_⟩
  · intro p
    unfold pickMatches
    rw [List.mem_filterMap]
    constructor
    · rintro ⟨e, he, hfe⟩
      by_cases h1 : eqFold e.1 want = true
      · rw [if_pos h1] at hfe
        exact ⟨e, he, h1, (Option.some.inj hfe).symm⟩
      · rw [if_neg h1] at hfe
        cases hfe
    · rintro ⟨e, he, h1, rfl⟩
      exact ⟨e, he, by rw [if_pos h1]⟩
  · intro hne
    unfold pickCaseInsensitiveEntry
    simp only [hread]
    cases hms : pickMatches want ents with
    | nil => exact absurd hms hne
    | cons m0 ms0 =>
      cases hsort : List.insertionSort (fun a b => pickLess b a = false) (m0 :: ms0) with
      | nil =>
        have hlen := List.length_insertionSort (fun a b => pickLess b a = false) (m0 :: ms0)
        rw [hsort] at hlen
        simp at hlen
      | cons best rest =>
        obtain ⟨hmem, hmin⟩ := insertionSort_head_min (fun a b => pickLess b a = false)
          (fun a b => pickLE_total a b) (fun a b c => pickLE_trans a b c)
          (m0 :: ms0) best rest hsort
        refine ⟨best, hmem,
          fun p hp => (pickLE_iff best p).mp (hmin p hp), ?_⟩
        simp only [hms, hsort]
  · intro hms
    unfold pickCaseInsensitiveEntry
    simp only [hread, hms]
    constructor
    · intro hstat
      simp only [hstat]
    · intro hstat
      cases hstatv : statPath fs (goJoin dir (strToLower want)) with
      | none => simp only [hstatv]
      | some b =>
        cases b with
        | true => exact absurd hstatv hstat
        | false => simp only [hstatv]

/-- Witness for claim C7 at a concrete mount parent holding one entry `c`. -/
theorem pickCaseInsensitiveEntry_locates_witness :
    PickSpec fsTie "/mnt" "c"
      [("c", Node.dir true [("USERS", Node.dir true []), ("Users", Node.dir true [])])] :=
  pickCaseInsensitiveEntry_locates fsTie "/mnt" "c"
    [("c", Node.dir true [("USERS", Node.dir true []), ("Users", Node.dir true [])])]
    rfl rfl

/-- Claim C1: for every nonempty candidate list produced by the Explorer,
`resolveWindowsPath` returns the full path of the candidate that is first
under the total order score descending, then full path ascending by ordinary
lexicographic byte comparison (so on a score tie the lexicographically
smaller path, uppercase before lowercase, wins). -/
theorem resolveWindowsPath_selects_first (fs : Node) (win mr : String)
    (cands : List candidate)
    (hmr : pickCaseInsensitiveEntry fs "/mnt" (driveOf win) = Except.ok mr)
    (hcands : exploreCandidates fs (goJoin "/mnt" mr) (winSegs win) = cands)
    (hne : cands ≠ []) :
    SelectorSpec fs win cands := by
  unfold SelectorSpec resolveWindowsPath
  simp only [hmr, hcands]
  cases hc : cands with
  | nil => exact absurd hc hne
  | cons c0 cs0 =>
    cases hsort : List.insertionSort (fun a b => candLess b a = false) (c0 :: cs0) with
    | nil =>
      have hlen := List.length_insertionSort (fun a b => candLess b a = false) (c0 :: cs0)
      rw [hsort] at hlen
      simp at hlen
    | cons best rest =>
      obtain ⟨hmem, hmin⟩ := insertionSort_head_min (fun a b => candLess b a = false)
        (fun a b => candLE_total a b) (fun a b c => candLE_trans a b c)
        (c0 :: cs0) best rest hsort
      refine ⟨best, hmem, fun c2 hc2 => (candLE_iff best c2).mp (hmin c2 hc2), ?_⟩
      simp only [hsort]

/-- Witness for claim C1: with both `/mnt/c/USERS` and `/mnt/c/Users` present
and the request `C:/UseRS` scoring 3 against each, the tie-break selects
`/mnt/c/USERS`, the lexicographically smaller path. -/
theorem resolveWindowsPath_selects_first_witness :
    SelectorSpec fsTie "C:/UseRS"
      [candidate.mk "/mnt/c/USERS" 3, candidate.mk "/mnt/c/Users" 3] :=
  resolveWindowsPath_selects_first fsTie "C:/UseRS" "c"
    [candidate.mk "/mnt/c/USERS" 3, candidate.mk "/mnt/c/Users" 3]
    rfl rfl (by simp)

/-- Claim C2: at every greedy-matcher step with a nonempty non-separator
tail, the match candidates are exactly the directory entries whose name
length is at most the tail length, whose name case-insensitively equals the
same-length tail prefix, and which resolve (following symbolic links) to a
directory; the chosen entry is first under longest prefix length, then
highest score, then name ascending, and exactly that prefix length of
characters is consumed from the tail before the next step. -/
theorem collapsed_step_selects (fs : Node) (fuel : Nat) (curr tail : String)
    (ents : List (String × Node))
    (h0 : tail ≠ "")
    (h1 : isSep (tail.data.headD ' ') = false)
    (hread : readDirPath fs curr = some ents)
    (hne : collectMatches tail.data ents ≠ []) :
    CollapsedStepSpec fs fuel curr tail ents := by
  refine ⟨fun m => mem_collectMatches, ?_⟩
  unfold resolveCollapsedGo
  rw [if_neg (fun hh => h0 (by simpa using hh))]
  rw [if_neg (fun hh => by rw [h1] at hh; exact Bool.false_ne_true hh)]
  simp only [hread]
  cases hms : collectMatches tail.data ents with
  | nil => exact absurd hms hne
  | cons m0 ms0 =>
    cases hsort : List.insertionSort (fun a b => mcandLess b a = false) (m0 :: ms0) with
    | nil =>
      have hlen := List.length_insertionSort (fun a b => mcandLess b a = false) (m0 :: ms0)
      rw [hsort] at hlen
      simp at hlen
    | cons chosen rest =>
      obtain ⟨hmem, hmin⟩ := insertionSort_head_min (fun a b => mcandLess b a = false)
        (fun a b => mcandLE_total a b) (fun a b c => mcandLE_trans a b c)
        (m0 :: ms0) chosen rest hsort
      have hplen : chosen.plen = chosen.name.data.length := by
        obtain ⟨e, he, hle, hf, hdir, hch⟩ := mem_collectMatches.mp (hms ▸ hmem)
        rw [hch]
      refine ⟨chosen, hmem, hplen,
        fun m hm => (mcandLE_iff chosen m).mp (hmin m hm), ?_⟩
      simp only [hsort]
      rw [← resolveCollapsedGo.eq_def]

/-- Witness for claim C2: segmenting tail `Projectsrepo` in a directory
holding `Projects` and `ProjectsX`. -/
theorem collapsed_step_selects_witness :
    CollapsedStepSpec fsCol 0 "/mnt/c" "Projectsrepo"
      [("Projects", Node.dir true [("repo", Node.dir true [])]),
       ("ProjectsX", Node.dir true [])] :=
  collapsed_step_selects fsCol 0 "/mnt/c" "Projectsrepo"
    [("Projects", Node.dir true [("repo", Node.dir true [])]),
     ("ProjectsX", Node.dir true [])]
    (by decide) rfl rfl (by decide)

/-- Claim C8: whenever at a greedy-matcher step no directory entry satisfies
the case-insensitive-prefix condition against the remaining tail, the matcher
fails immediately, whatever fuel remains, with the "cannot segment" error
naming the unresolved tail head (truncated for display) and the directory
searched; the error is returned directly rather than retrying any
alternative, so the failure is terminal and no backtracking occurs. -/
theorem collapsed_cannot_segment (fs : Node) (fuel : Nat) (curr tail : String)
    (ents : List (String × Node))
    (h0 : tail ≠ "")
    (h1 : isSep (tail.data.headD ' ') = false)
    (hread : readDirPath fs curr = some ents)
    (hnone : ∀ e ∈ ents, ¬ (e.1.data.length ≤ tail.data.length ∧
      eqFold (String.mk (tail.data.take e.1.data.length)) e.1 = true ∧
      isDirNode e.2 = true)) :
    resolveCollapsedGo fs (fuel + 1) curr tail =
      Except.error (cannotSegmentMsg tail curr) := by
  have hempty : collectMatches tail.data ents = [] := by
    cases hms : collectMatches tail.data ents with
    | nil => rfl
    | cons m0 ms0 =>
      have hm : m0 ∈ collectMatches tail.data ents := by
        rw [hms]
        exact List.mem_cons_self _ _
      obtain ⟨e, he, hle, hf, hdir, _⟩ := mem_collectMatches.mp hm
      exact absurd ⟨hle, hf, hdir⟩ (hnone e he)
  unfold resolveCollapsedGo
  rw [if_neg (fun hh => h0 (by simpa using hh))]
  rw [if_neg (fun hh => by rw [h1] at hh; exact Bool.false_ne_true hh)]
  simp only [hread, hempty]

/-- Witness for claim C8: the tail `nope` cannot be segmented in a directory
holding only `Projects` and `ProjectsX`. -/
theorem collapsed_cannot_segment_witness :
    resolveCollapsedGo fsCol (0 + 1) "/mnt/c" "nope" =
      Except.error (cannotSegmentMsg "nope" "/mnt/c") :=
  collapsed_cannot_segment fsCol 0 "/mnt/c" "nope"
    [("Projects", Node.dir true [("repo", Node.dir true [])]),
     ("ProjectsX", Node.dir true [])]
    (by decide) rfl rfl (by decide)

/-- Claim C5: a directory-listing failure at any depth of the Explorer search
prunes only that branch: the unreadable sibling branch contributes no
candidate at any accumulated score (and no error — the search is total by
construction, as the Go closure always returns a nil error), while a readable
case-insensitive sibling branch that matches the remaining segments still
contributes its candidate, so the overall search output is nonempty and
resolution succeeds with that branch. -/
theorem explore_prunes_unreadable (fs : Node) (d seg : String) (rest : List String)
    (s : Nat) (ents : List (String × Node)) (uName : String) (uNode : Node)
    (bName : String) (bNode : Node) (c : candidate)
    (hrest : rest ≠ [])
    (hread : readDirPath fs d = some ents)
    (hu : (uName, uNode) ∈ ents)
    (huDir : isDirNode uNode = true)
    (huM : eqFold uName seg = true)
    (huFail : readDirPath fs (goJoin d uName) = none)
    (hb : (bName, bNode) ∈ ents)
    (hbDir : isDirNode bNode = true)
    (hbM : eqFold bName seg = true)
    (hc : c ∈ dfs fs (goJoin d bName) rest (s + caseScore seg bName)) :
    PruneSpec fs d seg rest s uName c := by
  have hmem : c ∈ dfs fs d (seg :: rest) s := by
    unfold dfs
    simp only [hread]
    exact List.mem_flatten.mpr ⟨dfs fs (goJoin d bName) rest (s + caseScore seg bName),
      List.mem_map.mpr ⟨(bName, caseScore seg bName),
        mem_entryMatches.mpr ⟨(bName, bNode), hb, hbM, hbDir, rfl⟩, rfl⟩, hc⟩
  refine ⟨?_, hmem, List.ne_nil_of_mem hmem⟩
  intro s2
  cases rest with
  | nil => exact absurd rfl hrest
  | cons r1 rs =>
    unfold dfs
    simp only [huFail]

/-- Witness for claim C5: unreadable `/mnt/c/DATA` next to readable
`/mnt/c/data` whose subtree matches `data/x`. -/
theorem explore_prunes_unreadable_witness :
    PruneSpec fsPrune "/mnt/c" "data" ["x"] 0 "DATA" (candidate.mk "/mnt/c/data/x" 5) :=
  explore_prunes_unreadable fsPrune "/mnt/c" "data" ["x"] 0
    [("DATA", Node.dir false [("x", Node.dir true [])]),
     ("data", Node.dir true [("x", Node.dir true [])])]
    "DATA" (Node.dir false [("x", Node.dir true [])])
    "data" (Node.dir true [("x", Node.dir true [])])
    (candidate.mk "/mnt/c/data/x" 5)
    (by decide) rfl (List.mem_cons_self _ _) rfl (by decide) rfl
    (List.mem_cons_of_mem _ (List.mem_cons_self _ _)) rfl (by decide)
    (by decide)

/-- Claim C6: every Candidate emitted by the Explorer corresponds to a path
reached only through entries that each resolved (following symbolic links) to
a directory, and whose full concatenated path was itself verified by a stat
check to exist and be a directory at the moment the Candidate was emitted. -/
theorem explore_candidates_verified (fs : Node) (root : String) (segs : List String)
    (c : candidate) (hc : c ∈ exploreCandidates fs root segs) :
    ReachedThroughDirs fs root c.fullPath ∧ statPath fs c.fullPath = some true := by
  rw [exploreCandidates_eq_dfs] at hc
  exact dfs_verified fs segs root 0 c hc

/-- Witness for claim C6 at the candidate `/mnt/c/USERS` of `fsTie`. -/
theorem explore_candidates_verified_witness :
    ReachedThroughDirs fsTie "/mnt/c" (candidate.mk "/mnt/c/USERS" 3).fullPath ∧
      statPath fsTie (candidate.mk "/mnt/c/USERS" 3).fullPath = some true :=
  explore_candidates_verified fsTie "/mnt/c" ["UseRS"] (candidate.mk "/mnt/c/USERS" 3)
    (by decide)

/-- Claim C9: for every separator-using drive path whose normalised segments
exactly match (including case) a chain of real directories under the mount
root, resolution returns exactly that path, and its candidate carries the
maximum possible score — the sum over all segments of the segment's full
character length — which also bounds every other candidate's score. -/
theorem resolveWindowsPath_round_trip (fs : Node) (win mr p : String)
    (hmr : pickCaseInsensitiveEntry fs "/mnt" (driveOf win) = Except.ok mr)
    (hchain : exactChain fs (goJoin "/mnt" mr) (winSegs win) = some p) :
    RoundTripSpec fs win (goJoin "/mnt" mr) p := by
  have hmem : candidate.mk p (segLenSum (winSegs win)) ∈
      exploreCandidates fs (goJoin "/mnt" mr) (winSegs win) := by
    rw [exploreCandidates_eq_dfs]
    have hh := exactChain_mem_dfs fs (winSegs win) (goJoin "/mnt" mr) p 0 hchain
    simpa using hh
  have hbound : ∀ c ∈ exploreCandidates fs (goJoin "/mnt" mr) (winSegs win),
      c.score ≤ segLenSum (winSegs win) := by
    intro c hc
    rw [exploreCandidates_eq_dfs] at hc
    have hh := dfs_score_le fs (winSegs win) (goJoin "/mnt" mr) 0 c hc
    simpa using hh
  refine ⟨hmem, hbound, ?_⟩
  unfold resolveWindowsPath
  simp only [hmr]
  cases hcands : exploreCandidates fs (goJoin "/mnt" mr) (winSegs win) with
  | nil =>
    rw [hcands] at hmem
    cases hmem
  | cons c0 cs0 =>
    cases hsort : List.insertionSort (fun a b => candLess b a = false) (c0 :: cs0) with
    | nil =>
      have hlen := List.length_insertionSort (fun a b => candLess b a = false) (c0 :: cs0)
      rw [hsort] at hlen
      simp at hlen
    | cons best rest =>
      obtain ⟨hbmem, hbmin⟩ := insertionSort_head_min (fun a b => candLess b a = false)
        (fun a b => candLE_total a b) (fun a b c => candLE_trans a b c)
        (c0 :: cs0) best rest hsort
      have hble : best.score ≤ segLenSum (winSegs win) := by
        apply hbound
        rw [hcands]
        exact hbmem
      have hmem2 : candidate.mk p (segLenSum (winSegs win)) ∈ c0 :: cs0 := by
        rw [← hcands]
        exact hmem
      have hle := (candLE_iff best (candidate.mk p (segLenSum (winSegs win)))).mp
        (hbmin _ hmem2)
      have hbscore : best.score = segLenSum (winSegs win) := by
        rcases hle with h | ⟨h, _⟩
        · simp at h
          omega
        · exact h
      have hpath : best.fullPath = List.foldl goJoin (goJoin "/mnt" mr) (winSegs win) := by
        apply dfs_max_path fs (winSegs win) (goJoin "/mnt" mr) 0 best
        · rw [← exploreCandidates_eq_dfs, hcands]
          exact hbmem
        · simpa using hbscore
      have hp : p = List.foldl goJoin (goJoin "/mnt" mr) (winSegs win) :=
        exactChain_foldl fs (winSegs win) (goJoin "/mnt" mr) p hchain
      simp only [hsort]
      rw [hpath, ← hp]

/-- Witness for claim C9: resolving the exactly-cased `C:/Users/Docs`. -/
theorem resolveWindowsPath_round_trip_witness :
    RoundTripSpec fsChain "C:/Users/Docs" (goJoin "/mnt" "c") "/mnt/c/Users/Docs" :=
  resolveWindowsPath_round_trip fsChain "C:/Users/Docs" "c" "/mnt/c/Users/Docs" rfl rfl

/-- Claim C10 counterexample: the empty input has a whitespace-trimmed form
shorter than 3 characters, yet `ResolveTarget` rejects it with the
missing-target error instead of resolving it with Linux-path semantics (which
would here succeed and return the working directory `/`). -/
theorem short_input_counterexample :
    ResolveTarget fsEmpty "" "/" "" = Except.error "error: missing target directory" ∧
    goTrim "" = "" ∧ (goTrim "").data.length < 3 ∧
    linuxVerify fsEmpty (goTrim "") "/" "" = Except.ok "/" ∧
    ResolveTarget fsEmpty "" "/" "" ≠ linuxVerify fsEmpty (goTrim "") "/" "" := by
  refine ⟨rfl, rfl, by decide, rfl, ?_⟩
  intro h
  rw [(rfl : ResolveTarget fsEmpty "" "/" "" =
    Except.error "error: missing target directory")] at h
  rw [(rfl : linuxVerify fsEmpty (goTrim "") "/" "" = Except.ok "/")] at h
  exact Except.noConfusion h

/-- Claim C10 (amended): for every input whose whitespace-trimmed form is
non-empty and shorter than 3 characters (for example the bare drive string
`C:`), both drive-path classifiers reject it — each requires length at least
3 — and `ResolveTarget` resolves it with Linux-path semantics (relative to
the supplied working directory unless absolute or home-relative), never
consulting the /mnt mount convention. -/
theorem short_input_linux_semantics (fs : Node) (arg cwd home : String)
    (h1 : goTrim arg ≠ "") (h2 : (goTrim arg).data.length < 3) :
    isWindowsPath (goTrim arg) = false ∧
    looksLikeWindowsDriveNoSlash (goTrim arg) = false ∧
    ResolveTarget fs arg cwd home = linuxVerify fs (goTrim arg) cwd home := by
  have hw : isWindowsPath (goTrim arg) = false := by
    unfold isWindowsPath
    rw [if_pos h2]
  have hl : looksLikeWindowsDriveNoSlash (goTrim arg) = false := by
    unfold looksLikeWindowsDriveNoSlash
    rw [if_pos h2]
  refine ⟨hw, hl, ?_⟩
  unfold ResolveTarget
  rw [if_neg (fun hh => h1 (by simpa using hh))]
  rw [hw, hl]
  simp

/-- Witness for claim C10 (amended) at the bare drive string `C:`. -/
theorem short_input_linux_semantics_witness :
    isWindowsPath (goTrim "C:") = false ∧
    looksLikeWindowsDriveNoSlash (goTrim "C:") = false ∧
    ResolveTarget fsEmpty "C:" "/" "" = linuxVerify fsEmpty (goTrim "C:") "/" "" :=
  short_input_linux_semantics fsEmpty "C:" "/" "" (by decide) (by decide)
